import Mathlib

/-!
Verification of the mjoy-go consensus signing subsystem (package apos) and
its protocol configuration.

The definitions below are a shallow embedding of the Go source:
- `apos_signing.go` (Signature, CredentialSign, EphemeralSign, recoverPlain,
  deriveChainId),
- `consensus/apos/config.go` (Config, setDefault).

Go `*big.Int` values are mapped to `Int` (all values produced by the
embedded code paths are non-negative), byte slices to `List Nat`
(each element < 256), and fallible functions to `Except`.
Pointer-validity (`checkObj`, which panics on an uninitialized Signature)
is modelled at the type level: the embedded `Signature` always has its
three components present, matching the "initialized" premise of every
property considered here.

External cryptographic primitives (`crypto.Sign`, `crypto.Ecrecover`,
`crypto.Keccak256`, `common.MsgpHash`) live outside the provided sources;
they are taken as function parameters, constrained in theorems only by
their documented contracts.
-/

/-- Big-endian fixed-width byte encoding of a natural number, width `w`.
This models the effect of `copy(sig[w-len(b):w], x.Bytes())` into a
zeroed `w`-byte region, for `x` with at most `w` bytes. -/
def natToBytesBE : Nat → Nat → List Nat
  | 0, _ => []
  | w + 1, n => natToBytesBE w (n / 256) ++ [n % 256]

/-- Big-endian byte decoding; models `big.Int.SetBytes`. -/
def bytesToNat (l : List Nat) : Nat := l.foldl (fun a b => a * 256 + b) 0

/-- Models `copy(dst[:], src)` into a zeroed fixed-size `n`-byte array:
the first `min n src.length` bytes come from `src`, the rest stay zero. -/
def fixedCopy (n : Nat) (src : List Nat) : List Nat :=
  src.take n ++ List.replicate (n - src.length) 0

/-- The all-zero 32-byte digest, `types.Hash{}`. -/
def zeroHash : List Nat := List.replicate 32 0

/-- The secp256k1 group order N. -/
def secp256k1N : Nat :=
  115792089237316195423570985008687907852837564279074904382605163141518161494337

/-- N / 2, the malleability bound on S. -/
def secp256k1HalfN : Nat := secp256k1N / 2

/-- Modelled from the spec: `crypto.ValidateSignatureValues` — the
curve-range validation of R/S/V used by `toBytes` and `recoverPlain`
(the crypto package is not among the provided sources). It rejects
r < 1 or s < 1, s above N/2 in homestead mode, r or s not below N,
and a recovery byte other than 0 or 1. -/
def ValidateSignatureValues (v : Nat) (r s : Int) (homestead : Bool) : Bool :=
  if r < 1 ∨ s < 1 then false
  else if homestead ∧ (secp256k1HalfN : Int) < s then false
  else decide (r < (secp256k1N : Int)) && decide (s < (secp256k1N : Int))
    && (decide (v = 0) || decide (v = 1))

/-- Modelled from the spec: the process-wide `Config()` consumed by the
signing code, which is not among the provided sources. `chainId` is the
replay-protection domain separator and `chainIdMul` its derived
multiplier (`chainId * 2`); `maxBBASteps` bounds the BBA step count.
The code paths guarded by `Config().chainId == nil` (which panic) are
outside this model: every claim assumes a configured chain id. -/
structure AposConfig where
  chainId : Int
  chainIdMul : Int
  maxBBASteps : Nat

/-- `deriveChainId` from apos_signing.go: inverts the V encoding.
The fast path handles `v.BitLen() <= 64` (i.e. |v| < 2^64) with wrapping
uint64 arithmetic; the fallback uses big.Int `Sub`/`Div` (Euclidean). -/
def deriveChainId (v : Int) : Int :=
  if v.natAbs < 2 ^ 64 then
    -- v.Uint64() is the low 64 bits of |v|; here |v| < 2^64 already.
    -- (v - 35) / 2 is computed in wrapping uint64 arithmetic.
    if v.natAbs = 27 ∨ v.natAbs = 28 then 0
    else ((v.natAbs + 2 ^ 64 - 35) % 2 ^ 64 / 2 : Nat)
  else (v - 35) / 2

/-- `Signature`: the R, S, V components. The Go struct holds three
`*types.BigInt` pointers; `checkObj` panics when any is nil, so the
embedding carries the (initialized) values directly. -/
structure Signature where
  R : Int
  S : Int
  V : Int
deriving DecidableEq, Repr

/-- The reduced recovery byte computed inside `Signature.toBytes`:
`byte(V.Uint64())` of `V - chainIdMul - 35` (chainId non-zero) or
`V - 27` (chainId zero). `Uint64` takes the low 64 bits of the
absolute value, `byte` the low 8. -/
def Signature.vbyte (cfg : AposConfig) (s : Signature) : Nat :=
  (if cfg.chainId ≠ 0 then s.V - cfg.chainIdMul - 35 else s.V - 27).natAbs
    % 2 ^ 64 % 256

/-- `Signature.toBytes`: 65-byte `R(32) || S(32) || vbyte` serialization,
or `none` (Go: nil) when the reduced components fail validation. The
32-byte copies model `copy(sig[32-len(rb):32], rb)`, reached only when
validation has bounded R and S below N < 2^256. -/
def Signature.toBytes (cfg : AposConfig) (s : Signature) : Option (List Nat) :=
  if ¬ ValidateSignatureValues (s.vbyte cfg) s.R s.S true then none
  else some (natToBytesBE 32 s.R.toNat ++ natToBytesBE 32 s.S.toNat ++ [s.vbyte cfg])

/-- `Signature.hashBytes`: Keccak256 of the serialization; when `toBytes`
returns nil the nil slice is hashed, i.e. the hash of the empty input. -/
def Signature.hashBytes (cfg : AposConfig) (keccak : List Nat → List Nat)
    (s : Signature) : List Nat :=
  keccak ((s.toBytes cfg).getD [])

/-- `Signature.Hash`: same digest copied into a 32-byte `types.Hash`. -/
def Signature.Hash (cfg : AposConfig) (keccak : List Nat → List Nat)
    (s : Signature) : List Nat :=
  fixedCopy 32 (keccak ((s.toBytes cfg).getD []))

/-- `Signature.get`: parse a 65-byte signature into R, S, V. The Go
method overwrites all three fields of its receiver, so the embedding
returns the new component values. `sig[64] + 35` and `sig[64] + 27` are
byte (mod 256) additions. -/
def Signature.get (cfg : AposConfig) (sig : List Nat) : Except String Signature :=
  if sig.length ≠ 65 then .error "wrong size for Signature, want 65"
  else
    let r : Nat := bytesToNat (sig.take 32)
    let s : Nat := bytesToNat ((sig.drop 32).take 32)
    if cfg.chainId ≠ 0 then
      .ok ⟨r, s, ((sig.getD 64 0 + 35) % 256 : Nat) + cfg.chainIdMul⟩
    else
      .ok ⟨r, s, ((sig.getD 64 0 + 27) % 256 : Nat)⟩

/-- The payload whose msgp-hash a credential signs: `(Round, Step, Quantity)`. -/
structure CredentialSigForHash where
  Round : Nat
  Step : Nat
  Quantity : List Nat
deriving DecidableEq

/-- `CredentialSign`: signature components (embedded `Signature`) plus
the round and step the credential is for. -/
structure CredentialSign where
  sigv : Signature
  Round : Nat
  Step : Nat
deriving DecidableEq

/-- `CredentialSign.hash`: msgp-hash of the `CredentialSigForHash` built
from the credential. The Go code fills the Quantity field with the
constant `[]byte{0}` (its TODO notes the real quantity is unimplemented).
`common.MsgpHash` is external, taken as the parameter `mh`; its error
path (which yields the zero hash) is absorbed into `mh`'s range. -/
def CredentialSign.hash (mh : CredentialSigForHash → List Nat)
    (cret : CredentialSign) : List Nat :=
  mh ⟨cret.Round, cret.Step, [0]⟩

/-- `CredentialSign.sigHashBig`: the credential's signature digest read
as a big-endian arbitrary-precision integer. -/
def CredentialSign.sigHashBig (cfg : AposConfig) (keccak : List Nat → List Nat)
    (cret : CredentialSign) : Nat :=
  bytesToNat (Signature.hashBytes cfg keccak cret.sigv)

/-- `CredentialSign.Cmp`: `big.Int.Cmp` of the two credentials' signature
hash values — -1, 0 or +1. -/
def CredentialSign.Cmp (cfg : AposConfig) (keccak : List Nat → List Nat)
    (a b : CredentialSign) : Int :=
  let aInt := CredentialSign.sigHashBig cfg keccak a
  let bInt := CredentialSign.sigHashBig cfg keccak b
  if aInt < bInt then -1 else if aInt = bInt then 0 else 1

/-- The distinct error values `sign` can return: the two guard errors
(empty key, empty credential hash), a `crypto.Sign` failure, and a
`Signature.get` failure. -/
inductive SignErr where
  | emptyKey
  | emptyHash
  | cryptoFail (msg : String)
  | getFail (msg : String)
deriving DecidableEq

/-- `CredentialSign.sign`: guards against a nil private key and a zero
credential hash, then signs the digest with `crypto.Sign` (parameter
`ethSign`, contract: 65-byte `R || S || recovery-bit` output) and stores
the parsed components via `get`. Returns the credential with its
signature fields set; on error Go returns nil components, modelled by
the `Except.error` case. -/
def CredentialSign.sign (cfg : AposConfig) (mh : CredentialSigForHash → List Nat)
    (ethSign : List Nat → Nat → Except String (List Nat))
    (prv : Option Nat) (cret : CredentialSign) : Except SignErr CredentialSign :=
  match prv with
  | none => .error .emptyKey
  | some k =>
    let h := CredentialSign.hash mh cret
    if h = zeroHash then .error .emptyHash
    else
      match ethSign h k with
      | .error e => .error (.cryptoFail e)
      | .ok sig =>
        match Signature.get cfg sig with
        | .error e => .error (.getFail e)
        | .ok sv => .ok { cret with sigv := sv }

/-- The error values of `sender`/`recoverPlain`: `ErrInvalidChainId`,
`ErrInvalidSig`, a `crypto.Ecrecover` failure, and the malformed
public key error. -/
inductive RecoverErr where
  | invalidChainId
  | invalidSig
  | ecrecoverFail (msg : String)
  | invalidPubKey
deriving DecidableEq

/-- The address derived from an uncompressed public key:
`Keccak256(pub[1:])[12:]` copied into a 20-byte `types.Address`. -/
def addressOfPubKey (keccak : List Nat → List Nat) (pub : List Nat) : List Nat :=
  fixedCopy 20 ((keccak (pub.drop 1)).drop 12)

/-- `recoverPlain`: rejects a V wider than 8 bits, validates R/S/V,
re-serializes the 65-byte signature, recovers the public key with
`crypto.Ecrecover` (parameter `ecrecover`), requires a non-empty
uncompressed (0x04-prefixed) key, and derives the address. The 32-byte
copies of `R.Bytes()`/`S.Bytes()` are reached only after validation has
bounded both below N < 2^256. -/
def recoverPlain (keccak : List Nat → List Nat)
    (ecrecover : List Nat → List Nat → Except String (List Nat))
    (sighash : List Nat) (R S Vb : Int) (homestead : Bool) :
    Except RecoverErr (List Nat) :=
  -- V := byte(Vb.Uint64()), the low 8 bits of the low 64 bits of |Vb|
  if 256 ≤ Vb.natAbs then .error .invalidSig
  else if ¬ ValidateSignatureValues (Vb.natAbs % 2 ^ 64 % 256) R S homestead then
    .error .invalidSig
  else
    match ecrecover sighash (natToBytesBE 32 R.toNat ++ natToBytesBE 32 S.toNat
        ++ [Vb.natAbs % 2 ^ 64 % 256]) with
    | .error e => .error (.ecrecoverFail e)
    | .ok pub =>
      if pub.length = 0 ∨ pub.getD 0 0 ≠ 4 then .error .invalidPubKey
      else .ok (addressOfPubKey keccak pub)

/-- The local variable `V` computed in `sender`: the credential's V with
the chain-id bias removed (`V - chainIdMul - 35` when chainId is
non-zero, `V - 27` otherwise). -/
def senderV (cfg : AposConfig) (cret : CredentialSign) : Int :=
  if cfg.chainId ≠ 0 then cret.sigv.V - cfg.chainIdMul - 35
  else cret.sigv.V - 27

/-- `CredentialSign.sender`: rejects a V whose derived chain id differs
from the configured one, removes the chain-id bias from V, and recovers
the signer's address from the credential hash via `recoverPlain`. -/
def CredentialSign.sender (cfg : AposConfig) (mh : CredentialSigForHash → List Nat)
    (keccak : List Nat → List Nat)
    (ecrecover : List Nat → List Nat → Except String (List Nat))
    (cret : CredentialSign) : Except RecoverErr (List Nat) :=
  if deriveChainId cret.sigv.V ≠ cfg.chainId then .error .invalidChainId
  else
    recoverPlain keccak ecrecover (CredentialSign.hash mh cret)
      cret.sigv.R cret.sigv.S (senderV cfg cret) true

/-- The payload an ephemeral vote signs: `(Round, Step, Val)`. -/
structure EphemeralSigForHash where
  Round : Nat
  Step : Nat
  Val : List Nat
deriving DecidableEq

/-- `EphemeralSign`: signature components plus round, step and the voted
value (a block hash or a 0/1 sentinel). `val` nil makes `hash` panic in
Go; the embedding carries the initialized value. -/
structure EphemeralSign where
  sigv : Signature
  round : Nat
  step : Nat
  val : List Nat
deriving DecidableEq

/-- `EphemeralSign.hash`: msgp-hash of `(round, step, val)`. -/
def EphemeralSign.hash (mh : EphemeralSigForHash → List Nat)
    (esig : EphemeralSign) : List Nat :=
  mh ⟨esig.round, esig.step, esig.val⟩

/-- `EphemeralSign.sign`: identical guard structure to
`CredentialSign.sign`, over the ephemeral payload hash. -/
def EphemeralSign.sign (cfg : AposConfig) (mh : EphemeralSigForHash → List Nat)
    (ethSign : List Nat → Nat → Except String (List Nat))
    (prv : Option Nat) (esig : EphemeralSign) : Except SignErr EphemeralSign :=
  match prv with
  | none => .error .emptyKey
  | some k =>
    let h := EphemeralSign.hash mh esig
    if h = zeroHash then .error .emptyHash
    else
      match ethSign h k with
      | .error e => .error (.cryptoFail e)
      | .ok sig =>
        match Signature.get cfg sig with
        | .error e => .error (.getFail e)
        | .ok sv => .ok { esig with sigv := sv }

/-- `Config` from consensus/apos/config.go: the protocol parameters. -/
structure Config where
  Lookback : Nat
  PrPrecision : Int
  PrLeader : Int
  PrVerifier : Int
  MaxBBASteps : Nat
  MaxNumPerRound : Nat
  PrH : Int
  DelayBlock : Int
  DelayVerify : Int
deriving DecidableEq

/-- `Config.setDefault`: installs the default parameter values
(every field is overwritten). -/
def Config.setDefault (_c : Config) : Config :=
  { Lookback := 100
    PrPrecision := 10
    PrLeader := 1000000000
    PrVerifier := 5000000000
    MaxBBASteps := 180
    MaxNumPerRound := 10
    PrH := 34
    DelayBlock := 60
    DelayVerify := 10 }

/-- Modelled from the spec: the states of the BBA state machine
(the state-machine source is not among the provided files):
`Propose -> Step(1) -> ... -> Step(maxBBASteps) ->
 Committed(value) | FallbackCommitted`. -/
inductive BBAState (α : Type) where
  | propose
  | atStep (i : Nat)
  | committed (v : α)
  | fallbackCommitted
deriving DecidableEq

/-- Modelled from the spec: one transition of the BBA state machine for
a participant. `quorum i` is the value (if any) for which the
participant observed a converging quorum at step `i`; with no quorum the
machine advances, and once step `maxSteps` is reached it commits the
well-known fallback value. Terminal states are absorbing. -/
def bbaNext (maxSteps : Nat) (quorum : Nat → Option α) :
    BBAState α → BBAState α
  | .propose => .atStep 1
  | .atStep i =>
    match quorum i with
    | some v => .committed v
    | none => if maxSteps ≤ i then .fallbackCommitted else .atStep (i + 1)
  | .committed v => .committed v
  | .fallbackCommitted => .fallbackCommitted

/-- Modelled from the spec: the state after `n` transitions from
`Propose`. -/
def bbaRun (maxSteps : Nat) (quorum : Nat → Option α) (n : Nat) : BBAState α :=
  (bbaNext maxSteps quorum)^[n] .propose

/-- A concrete configuration for witnesses: chainId 1, multiplier 2. -/
def cfgW : AposConfig := ⟨1, 2, 180⟩

/-- A concrete digest function for witnesses. -/
def keccakW : List Nat → List Nat := fun l => 0 :: l

/-- A concrete 65-byte signature with R = S = 0 and recovery byte 1. -/
def sigW : List Nat := List.replicate 64 0 ++ [1]

/-- A configuration whose chainId does not fit in 64 bits, exercising
the arbitrary-precision fallback of `deriveChainId`. -/
def cfgBig : AposConfig := ⟨18446744073709551616, 36893488147419103232, 180⟩

/-- A msgp-hash returning a non-zero digest, for witnesses. -/
def mhW : CredentialSigForHash → List Nat := fun _ => List.replicate 32 1

/-- A msgp-hash returning the zero digest, for witnesses. -/
def mh0 : CredentialSigForHash → List Nat := fun _ => List.replicate 32 0

/-- Ephemeral counterparts of `mhW` and `mh0`. -/
def mhEW : EphemeralSigForHash → List Nat := fun _ => List.replicate 32 1

def mhE0 : EphemeralSigForHash → List Nat := fun _ => List.replicate 32 0

/-- A valid 65-byte signature (R = S = 1, recovery bit 0), for witnesses. -/
def sigValidW : List Nat := natToBytesBE 32 1 ++ natToBytesBE 32 1 ++ [0]

/-- A signer that always produces `sigValidW`, for witnesses. -/
def ethSignW : List Nat → Nat → Except String (List Nat) := fun _ _ => .ok sigValidW

/-- An uncompressed public key (0x04-prefixed), for witnesses. -/
def pubW : List Nat := 4 :: List.replicate 64 7

/-- A recovery function that always recovers `pubW`, for witnesses. -/
def ecrW : List Nat → List Nat → Except String (List Nat) := fun _ _ => .ok pubW

/-- Concrete credential and ephemeral-vote payloads for witnesses. -/
def credW : CredentialSign := ⟨⟨0, 0, 0⟩, 1, 2⟩

def esigW : EphemeralSign := ⟨⟨0, 0, 0⟩, 1, 2, [1]⟩

/-- The 65-byte signature reassembled inside `recoverPlain` from the
credential's components and the reduced recovery byte, when called
from `sender`. -/
def senderSigBytes (cfg : AposConfig) (cret : CredentialSign) : List Nat :=
  natToBytesBE 32 cret.sigv.R.toNat ++ natToBytesBE 32 cret.sigv.S.toNat
    ++ [(senderV cfg cret).natAbs % 2 ^ 64 % 256]

/-- Recovery functions that fail or return a malformed key, for witnesses. -/
def ecrFailW : List Nat → List Nat → Except String (List Nat) :=
  fun _ _ => .error "boom"

def ecrBadW : List Nat → List Nat → Except String (List Nat) :=
  fun _ _ => .ok [5]

/-- Credentials exercising the sender error branches, for witnesses. -/
def credV100 : CredentialSign := ⟨⟨1, 1, 100⟩, 1, 2⟩

def credBadRS : CredentialSign := ⟨⟨0, 1, 37⟩, 1, 2⟩

def credGood : CredentialSign := ⟨⟨1, 1, 37⟩, 1, 2⟩

/-- The signature witnessing the C3 counterexample: V = 293 under
chainId 1 (multiplier 2). -/
def sigEx : Signature := ⟨1, 1, 293⟩

theorem natToBytesBE_length (w n : Nat) : (natToBytesBE w n).length = w := by
  induction w generalizing n with
  | zero => rfl
  | succ w ih => simp [natToBytesBE, ih]

theorem natToBytesBE_lt (w n : Nat) : ∀ x ∈ natToBytesBE w n, x < 256 := by
  induction w generalizing n with
  | zero => simp [natToBytesBE]
  | succ w ih =>
    intro x hx
    rw [natToBytesBE] at hx
    rcases List.mem_append.1 hx with h | h
    · exact ih _ x h
    · simp at h; omega

theorem bytesToNat_append (l : List Nat) (x : Nat) :
    bytesToNat (l ++ [x]) = bytesToNat l * 256 + x := by
  simp [bytesToNat, List.foldl_append]

theorem mod256_mul (q r t : Nat) (hr : r < 256) (ht : 0 < t) :
    (256 * q + r) % (256 * t) = 256 * (q % t) + r := by
  rw [Nat.add_mod, Nat.mul_mod_mul_left]
  have h1 : q % t < t := Nat.mod_lt _ ht
  have h2 : r % (256 * t) = r := Nat.mod_eq_of_lt (by omega)
  rw [h2]
  exact Nat.mod_eq_of_lt (by omega)

theorem mod256_pow_succ (n w : Nat) :
    n % 256 ^ (w + 1) = n / 256 % 256 ^ w * 256 + n % 256 := by
  have h1 : 256 ^ (w + 1) = 256 * 256 ^ w := by ring
  have h2 : n = 256 * (n / 256) + n % 256 := by omega
  calc n % 256 ^ (w + 1) = (256 * (n / 256) + n % 256) % (256 * 256 ^ w) := by
        rw [h1, ← h2]
    _ = 256 * (n / 256 % 256 ^ w) + n % 256 :=
        mod256_mul _ _ _ (by omega) (by positivity)
    _ = n / 256 % 256 ^ w * 256 + n % 256 := by ring

theorem bytesToNat_natToBytesBE (w n : Nat) :
    bytesToNat (natToBytesBE w n) = n % 256 ^ w := by
  induction w generalizing n with
  | zero => simp [natToBytesBE, bytesToNat, Nat.mod_one]
  | succ w ih => rw [natToBytesBE, bytesToNat_append, ih, mod256_pow_succ]

theorem natToBytesBE_bytesToNat (l : List Nat) (hb : ∀ x ∈ l, x < 256) :
    natToBytesBE l.length (bytesToNat l) = l := by
  induction l using List.reverseRecOn with
  | nil => rfl
  | append_singleton l x ih =>
    have hx : x < 256 := hb x (by simp)
    have hl : ∀ y ∈ l, y < 256 := fun y hy => hb y (by simp [hy])
    have hdiv : (bytesToNat l * 256 + x) / 256 = bytesToNat l := by omega
    have hmod : (bytesToNat l * 256 + x) % 256 = x := by omega
    rw [List.length_append, List.length_singleton, bytesToNat_append,
      natToBytesBE, hdiv, hmod, ih hl]

theorem getD_at_64 (A B : List Nat) (x : Nat) (hA : A.length = 32)
    (hB : B.length = 32) : (A ++ (B ++ [x])).getD 64 0 = x := by
  rw [List.getD_append_right _ _ _ _ (by omega), hA]
  rw [List.getD_append_right _ _ _ _ (by omega), hB]
  rfl

theorem drop64_of_length65 (l : List Nat) (h : l.length = 65) :
    l.drop 64 = [l.getD 64 0] := by
  have h64 : 64 < l.length := by omega
  rw [List.drop_eq_getElem_cons h64]
  have h2 : l.drop (64 + 1) = [] := List.drop_eq_nil_of_le (by omega)
  rw [h2, List.getD_eq_getElem l 0 h64]

theorem decompose65 (l : List Nat) :
    l = l.take 32 ++ ((l.drop 32).take 32 ++ l.drop 64) := by
  conv_lhs => rw [← List.take_append_drop 32 l]
  congr 1
  conv_lhs => rw [← List.take_append_drop 32 (l.drop 32)]
  congr 1
  rw [List.drop_drop]

theorem validate_spec {v : Nat} {r s : Int}
    (h : ValidateSignatureValues v r s true = true) :
    1 ≤ r ∧ 1 ≤ s ∧ s ≤ (secp256k1HalfN : Int) ∧ r < (secp256k1N : Int) ∧
      s < (secp256k1N : Int) ∧ (v = 0 ∨ v = 1) := by
  unfold ValidateSignatureValues at h
  split at h
  · exact absurd h (by simp)
  · split at h
    · exact absurd h (by simp)
    · simp only [Bool.and_eq_true, Bool.or_eq_true, decide_eq_true_eq] at h
      rename_i h1 h2
      push_neg at h1
      simp only [eq_self_iff_true, true_and, not_lt] at h2
      exact ⟨by omega, by omega, h2, h.1.1, h.1.2, h.2⟩

theorem secp256k1N_lt_2pow256 : secp256k1N < 256 ^ 32 := by
  unfold secp256k1N
  norm_num

theorem deriveChainId_encode {c : Int} (hc : 0 < c) {b : Nat} (hb : b ≤ 1) :
    deriveChainId ((b : Int) + 35 + 2 * c) = c := by
  unfold deriveChainId
  have h64 : (2 : Nat) ^ 64 = 18446744073709551616 := by norm_num
  split
  · split
    · omega
    · omega
  · omega

theorem deriveChainId_base {b : Nat} (hb : b ≤ 1) :
    deriveChainId ((b : Int) + 27) = 0 := by
  unfold deriveChainId
  have h64 : (2 : Nat) ^ 64 = 18446744073709551616 := by norm_num
  split
  · split
    · rfl
    · omega
  · omega

theorem natToBytesBE_of_len32 (l : List Nat) (hl : l.length = 32)
    (hb : ∀ x ∈ l, x < 256) : natToBytesBE 32 (bytesToNat l) = l := by
  rw [← hl]
  exact natToBytesBE_bytesToNat l hb

/-- C5: the default configuration installed by `setDefault` violates the
invariant that every probability numerator is at most `PrPrecision`:
it sets `PrPrecision = 10` but `PrLeader = 10^9`, `PrVerifier = 5*10^9`
and `PrH = 34` (the adjacent comments `0.1` and `0.5` are consistent
only with a precision of `10^10`). The `MaxBBASteps > 0` part holds. -/
theorem config_setDefault_probability_invariant_violated (c : Config) :
    ¬ (Config.setDefault c).PrLeader ≤ (Config.setDefault c).PrPrecision ∧
    ¬ (Config.setDefault c).PrVerifier ≤ (Config.setDefault c).PrPrecision ∧
    ¬ (Config.setDefault c).PrH ≤ (Config.setDefault c).PrPrecision ∧
    0 < (Config.setDefault c).MaxBBASteps := by
  refine ⟨?_, ?_, ?_, ?_⟩ <;> simp [Config.setDefault]

/-- C4: the digest `CredentialSign.hash` computes is NOT a function of
the round's quantity seed: the Go code hardcodes `Quantity = []byte{0}`
(its own TODO marks this as unimplemented), so the payload hashed is
`(Round, Step, [0])` for every credential, and any two credentials for
the same round and step produce the same digest regardless of the
round's actual quantity seed. -/
theorem credentialSign_hash_quantity_constant
    (mh : CredentialSigForHash → List Nat) (sv1 sv2 : Signature)
    (r s : Nat) :
    CredentialSign.hash mh ⟨sv1, r, s⟩ = mh ⟨r, s, [0]⟩ ∧
    CredentialSign.hash mh ⟨sv1, r, s⟩ = CredentialSign.hash mh ⟨sv2, r, s⟩ :=
  ⟨rfl, rfl⟩

/-- C10: when the reduced recovery byte, R or S fails the curve-range
validation, `toBytes` returns nil, and consequently `hashBytes` and
`Hash` silently hash the nil (empty) byte slice instead of reporting an
error. -/
theorem signature_toBytes_invalid_returns_none (cfg : AposConfig)
    (keccak : List Nat → List Nat) (s : Signature)
    (h : ValidateSignatureValues (s.vbyte cfg) s.R s.S true = false) :
    s.toBytes cfg = none ∧
    Signature.hashBytes cfg keccak s = keccak [] ∧
    Signature.Hash cfg keccak s = fixedCopy 32 (keccak []) := by
  have hn : s.toBytes cfg = none := by
    unfold Signature.toBytes
    rw [h]
    simp
  refine ⟨hn, ?_, ?_⟩
  · unfold Signature.hashBytes
    rw [hn]
    exact rfl
  · unfold Signature.Hash
    rw [hn]
    exact rfl

theorem signature_toBytes_invalid_returns_none_witness :
    ValidateSignatureValues (Signature.vbyte cfgW ⟨0, 1, 37⟩) 0 1 true = false ∧
    Signature.toBytes cfgW ⟨0, 1, 37⟩ = none ∧
    Signature.hashBytes cfgW keccakW ⟨0, 1, 37⟩ = keccakW [] ∧
    Signature.Hash cfgW keccakW ⟨0, 1, 37⟩ = fixedCopy 32 (keccakW []) := by
  have h := signature_toBytes_invalid_returns_none cfgW keccakW ⟨0, 1, 37⟩ (by decide)
  exact ⟨by decide, h.1, h.2.1, h.2.2⟩

/-- The value `Signature.get` produces on a 65-byte input when the
configured chainId is non-zero. -/
theorem signatureGet_nonzero (cfg : AposConfig)
    (h0 : cfg.chainId ≠ 0)
    (sig : List Nat) (hlen : sig.length = 65) (b : Nat)
    (hb : sig.getD 64 0 = b) (hb1 : b ≤ 1) :
    Signature.get cfg sig =
      .ok ⟨bytesToNat (sig.take 32), bytesToNat ((sig.drop 32).take 32),
        (b : Int) + 35 + cfg.chainIdMul⟩ := by
  unfold Signature.get
  rw [if_neg (by omega)]
  rw [if_pos h0]
  rw [hb]
  have hm : (b + 35) % 256 = b + 35 := Nat.mod_eq_of_lt (by omega)
  rw [hm]
  congr 2

theorem signatureGet_zero (cfg : AposConfig) (hc : cfg.chainId = 0)
    (sig : List Nat) (hlen : sig.length = 65) (b : Nat)
    (hb : sig.getD 64 0 = b) (hb1 : b ≤ 1) :
    Signature.get cfg sig =
      .ok ⟨bytesToNat (sig.take 32), bytesToNat ((sig.drop 32).take 32),
        (b : Int) + 27⟩ := by
  unfold Signature.get
  rw [if_neg (by omega)]
  rw [if_neg (by simp [hc])]
  rw [hb]
  have hm : (b + 27) % 256 = b + 27 := Nat.mod_eq_of_lt (by omega)
  rw [hm]
  congr 2

/-- C7: under a non-zero configured chainId `c` (with its derived
multiplier `2*c`) and a raw recovery byte `b` in {0,1}, `get` stores
`V = b + 35 + c*2`, and `deriveChainId` inverts this V back to `c` —
covering both the 64-bit fast path and the arbitrary-precision fallback,
since `c` ranges over all positive integers. -/
theorem signature_get_v_encoding_deriveChainId (cfg : AposConfig) (c : Int)
    (hc : cfg.chainId = c) (h0 : 0 < c) (hmul : cfg.chainIdMul = 2 * c)
    (sig : List Nat) (hlen : sig.length = 65) (b : Nat)
    (hb : sig.getD 64 0 = b) (hb1 : b ≤ 1) :
    Signature.get cfg sig =
      .ok ⟨bytesToNat (sig.take 32), bytesToNat ((sig.drop 32).take 32),
        (b : Int) + 35 + 2 * c⟩ ∧
    deriveChainId ((b : Int) + 35 + 2 * c) = c := by
  have h := signatureGet_nonzero cfg (by rw [hc]; omega) sig hlen b hb hb1
  rw [hmul] at h
  exact ⟨h, deriveChainId_encode h0 hb1⟩

theorem signature_get_v_encoding_deriveChainId_witness :
    Signature.get cfgW sigW = .ok ⟨0, 0, 38⟩ ∧
    deriveChainId 38 = 1 ∧
    deriveChainId 36893488147419103268 = 18446744073709551616 := by
  have h1 := signature_get_v_encoding_deriveChainId cfgW 1 rfl (by decide)
    rfl sigW (by decide) 1 (by decide) (by decide)
  have h2 := signature_get_v_encoding_deriveChainId cfgBig 18446744073709551616
    rfl (by decide) (by decide) sigW (by decide) 1 (by decide) (by decide)
  exact ⟨h1.1, h1.2, h2.2⟩

theorem bbaRun_atStep {α : Type} (k : Nat) (quorum : Nat → Option α)
    (hq : ∀ i, quorum i = none) :
    ∀ j, 1 ≤ j → j ≤ k → bbaRun k quorum j = .atStep j := by
  intro j
  induction j with
  | zero => omega
  | succ j ih =>
    intro _ h2
    by_cases hj : j = 0
    · subst hj
      simp [bbaRun, bbaNext]
    · have hrun := ih (by omega) (by omega)
      unfold bbaRun at hrun ⊢
      rw [Function.iterate_succ_apply', hrun]
      simp [bbaNext, hq j]
      omega

/-- C9: with `maxBBASteps = k` and no converging quorum at any step
(`quorum i = none` for every `i` — each participant runs this machine
over its own quorum observations, so this covers every participant),
the BBA state machine reaches exactly step `k`, commits the fallback
value on the next transition, and never commits a non-fallback value. -/
theorem bba_fallback_termination {α : Type} (k : Nat) (hk : 0 < k)
    (quorum : Nat → Option α) (hq : ∀ i, quorum i = none) :
    bbaRun k quorum k = .atStep k ∧
    bbaRun k quorum (k + 1) = .fallbackCommitted ∧
    ∀ j, j ≤ k → ∀ v, bbaRun k quorum j ≠ .committed v := by
  have hk' := bbaRun_atStep k quorum hq k hk le_rfl
  refine ⟨hk', ?_, ?_⟩
  · unfold bbaRun at hk' ⊢
    rw [Function.iterate_succ_apply', hk']
    simp [bbaNext, hq k]
  · intro j hj v
    by_cases hj0 : j = 0
    · subst hj0
      simp [bbaRun]
    · rw [bbaRun_atStep k quorum hq j (by omega) hj]
      simp

theorem bba_fallback_termination_witness :
    bbaRun 12 (fun _ => (none : Option Nat)) 12 = .atStep 12 ∧
    bbaRun 12 (fun _ => (none : Option Nat)) 13 = .fallbackCommitted := by
  have h := bba_fallback_termination 12 (by decide)
    (fun _ => (none : Option Nat)) (fun _ => rfl)
  exact ⟨h.1, h.2.1⟩

/-- C6: both `CredentialSign.sign` and `EphemeralSign.sign` return the
empty-key error (and no signature components) on a nil private key, the
empty-hash error when the payload hashes to the all-zero digest, and
under a non-nil key and a non-zero payload hash neither of those two
error branches is taken. -/
theorem sign_empty_key_and_empty_hash_guards (cfg : AposConfig)
    (mh : CredentialSigForHash → List Nat) (mhE : EphemeralSigForHash → List Nat)
    (ethSign : List Nat → Nat → Except String (List Nat))
    (cret : CredentialSign) (esig : EphemeralSign) :
    CredentialSign.sign cfg mh ethSign none cret = .error .emptyKey ∧
    EphemeralSign.sign cfg mhE ethSign none esig = .error .emptyKey ∧
    (∀ k, CredentialSign.hash mh cret = zeroHash →
      CredentialSign.sign cfg mh ethSign (some k) cret = .error .emptyHash) ∧
    (∀ k, EphemeralSign.hash mhE esig = zeroHash →
      EphemeralSign.sign cfg mhE ethSign (some k) esig = .error .emptyHash) ∧
    (∀ k, CredentialSign.hash mh cret ≠ zeroHash →
      CredentialSign.sign cfg mh ethSign (some k) cret ≠ .error .emptyKey ∧
      CredentialSign.sign cfg mh ethSign (some k) cret ≠ .error .emptyHash) ∧
    (∀ k, EphemeralSign.hash mhE esig ≠ zeroHash →
      EphemeralSign.sign cfg mhE ethSign (some k) esig ≠ .error .emptyKey ∧
      EphemeralSign.sign cfg mhE ethSign (some k) esig ≠ .error .emptyHash) := by
  refine ⟨rfl, rfl, ?_, ?_, ?_, ?_⟩
  · intro k h
    unfold CredentialSign.sign
    simp [h]
  · intro k h
    unfold EphemeralSign.sign
    simp [h]
  · intro k h
    unfold CredentialSign.sign
    simp only [h, if_false, ite_false]
    cases hsig : ethSign (CredentialSign.hash mh cret) k with
    | error e => exact ⟨by simp, by simp⟩
    | ok sig =>
      cases hget : Signature.get cfg sig with
      | error e => exact ⟨by simp [hget], by simp [hget]⟩
      | ok sv => exact ⟨by simp [hget], by simp [hget]⟩
  · intro k h
    unfold EphemeralSign.sign
    simp only [h, if_false, ite_false]
    cases hsig : ethSign (EphemeralSign.hash mhE esig) k with
    | error e => exact ⟨by simp, by simp⟩
    | ok sig =>
      cases hget : Signature.get cfg sig with
      | error e => exact ⟨by simp [hget], by simp [hget]⟩
      | ok sv => exact ⟨by simp [hget], by simp [hget]⟩

theorem sign_empty_key_and_empty_hash_guards_witness :
    CredentialSign.sign cfgW mhW ethSignW none credW = .error .emptyKey ∧
    CredentialSign.sign cfgW mh0 ethSignW (some 5) credW = .error .emptyHash ∧
    EphemeralSign.sign cfgW mhE0 ethSignW (some 5) esigW = .error .emptyHash ∧
    CredentialSign.sign cfgW mhW ethSignW (some 5) credW ≠ .error .emptyKey ∧
    EphemeralSign.sign cfgW mhEW ethSignW (some 5) esigW ≠ .error .emptyHash := by
  have h1 := sign_empty_key_and_empty_hash_guards cfgW mhW mhEW ethSignW credW esigW
  have h2 := sign_empty_key_and_empty_hash_guards cfgW mh0 mhE0 ethSignW credW esigW
  exact ⟨h1.1, h2.2.2.1 5 rfl, h2.2.2.2.1 5 rfl,
    (h1.2.2.2.2.1 5 (by decide)).1, (h1.2.2.2.2.2 5 (by decide)).2⟩

theorem sig65_reconstruct (sb : List Nat) (hlen : sb.length = 65)
    (hbytes : ∀ x ∈ sb, x < 256) :
    natToBytesBE 32 (bytesToNat (sb.take 32)) ++
      natToBytesBE 32 (bytesToNat ((sb.drop 32).take 32)) ++ [sb.getD 64 0] = sb := by
  have h1 : natToBytesBE 32 (bytesToNat (sb.take 32)) = sb.take 32 :=
    natToBytesBE_of_len32 _ (by simp [List.length_take, hlen])
      (fun x hx => hbytes x (List.take_subset _ _ hx))
  have h2 : natToBytesBE 32 (bytesToNat ((sb.drop 32).take 32)) = (sb.drop 32).take 32 :=
    natToBytesBE_of_len32 _ (by simp [List.length_take, List.length_drop, hlen])
      (fun x hx => hbytes x (List.drop_subset _ _ (List.take_subset _ _ hx)))
  rw [h1, h2, List.append_assoc, ← drop64_of_length65 sb hlen]
  exact (decompose65 sb).symm

theorem recoverPlain_reconstruct (keccak : List Nat → List Nat)
    (ecr : List Nat → List Nat → Except String (List Nat))
    (h : List Nat) (sb : List Nat)
    (hlen : sb.length = 65) (hbytes : ∀ x ∈ sb, x < 256)
    (hbit : sb.getD 64 0 ≤ 1)
    (hval : ValidateSignatureValues (sb.getD 64 0) (bytesToNat (sb.take 32))
      (bytesToNat ((sb.drop 32).take 32)) true = true)
    (pub : List Nat) (hrec : ecr h sb = .ok pub)
    (hpub : pub.getD 0 0 = 4) (hpubne : pub ≠ []) :
    recoverPlain keccak ecr h (bytesToNat (sb.take 32))
      (bytesToNat ((sb.drop 32).take 32)) ((sb.getD 64 0 : Nat) : Int) true
      = .ok (addressOfPubKey keccak pub) := by
  have h64 : (2 : Nat) ^ 64 = 18446744073709551616 := by norm_num
  have hred : ((sb.getD 64 0 : Nat) : Int).natAbs % 2 ^ 64 % 256 = sb.getD 64 0 := by
    rw [Int.natAbs_ofNat, h64]
    omega
  unfold recoverPlain
  rw [if_neg (by rw [Int.natAbs_ofNat]; omega)]
  rw [hred]
  rw [if_neg (by rw [hval]; simp)]
  have htn1 : ((bytesToNat (sb.take 32) : Int)).toNat = bytesToNat (sb.take 32) := by
    simp
  have htn2 : ((bytesToNat ((sb.drop 32).take 32) : Int)).toNat
      = bytesToNat ((sb.drop 32).take 32) := by
    simp
  rw [htn1, htn2, sig65_reconstruct sb hlen hbytes, hrec]
  have hpub2 : pub[0]?.getD 0 = 4 := by
    simpa [List.getD] using hpub
  simp [hpub2, hpubne]

theorem sender_eval (cfg : AposConfig) (mh : CredentialSigForHash → List Nat)
    (keccak : List Nat → List Nat)
    (ecr : List Nat → List Nat → Except String (List Nat))
    (cret : CredentialSign)
    (hne : deriveChainId cret.sigv.V = cfg.chainId) :
    CredentialSign.sender cfg mh keccak ecr cret =
      recoverPlain keccak ecr (CredentialSign.hash mh cret)
        cret.sigv.R cret.sigv.S (senderV cfg cret) true := by
  unfold CredentialSign.sender
  rw [if_neg (by simp [hne])]

/-- C1: signing a credential whose hash is non-zero with a valid private
key and then calling sender() succeeds and returns exactly the address
derived from the key's public key. The external ECDSA primitives are
abstract parameters constrained by their documented contracts: `ethSign`
returns a 65-byte `R || S || recovery-bit` signature whose components
pass curve-range validation, and `ecrecover` recovers from it `pub`,
the signing key's uncompressed public key. Both the zero and the
non-zero chainId configurations are covered. -/
theorem credentialSign_sign_sender_roundtrip
    (cfg : AposConfig) (c : Int) (hc : cfg.chainId = c) (hc0 : 0 ≤ c)
    (hmul : cfg.chainIdMul = 2 * c)
    (mh : CredentialSigForHash → List Nat) (keccak : List Nat → List Nat)
    (ethSign : List Nat → Nat → Except String (List Nat))
    (ecrecover : List Nat → List Nat → Except String (List Nat))
    (k : Nat) (pub : List Nat) (cret : CredentialSign)
    (hh : CredentialSign.hash mh cret ≠ zeroHash)
    (sb : List Nat)
    (hsign : ethSign (CredentialSign.hash mh cret) k = .ok sb)
    (hlen : sb.length = 65) (hbytes : ∀ x ∈ sb, x < 256)
    (hbit : sb.getD 64 0 ≤ 1)
    (hval : ValidateSignatureValues (sb.getD 64 0)
      (bytesToNat (sb.take 32)) (bytesToNat ((sb.drop 32).take 32)) true = true)
    (hrec : ecrecover (CredentialSign.hash mh cret) sb = .ok pub)
    (hpub : pub.getD 0 0 = 4) (hpubne : pub ≠ []) :
    ∃ cret2, CredentialSign.sign cfg mh ethSign (some k) cret = .ok cret2 ∧
      CredentialSign.sender cfg mh keccak ecrecover cret2 =
        .ok (addressOfPubKey keccak pub) := by
  by_cases hcz : c = 0
  · have hget := signatureGet_zero cfg (by rw [hc, hcz]) sb hlen (sb.getD 64 0) rfl hbit
    refine ⟨{ cret with sigv := ⟨(bytesToNat (sb.take 32) : Int),
      (bytesToNat ((sb.drop 32).take 32) : Int), (sb.getD 64 0 : Int) + 27⟩ }, ?_, ?_⟩
    · unfold CredentialSign.sign
      simp [hh, hsign, hget]
    · rw [sender_eval cfg mh keccak ecrecover _
        (by rw [hc, hcz]; exact deriveChainId_base hbit)]
      have hV : senderV cfg { cret with sigv := ⟨(bytesToNat (sb.take 32) : Int),
          (bytesToNat ((sb.drop 32).take 32) : Int), (sb.getD 64 0 : Int) + 27⟩ }
          = ((sb.getD 64 0 : Nat) : Int) := by
        unfold senderV
        rw [if_neg (by simp [hc, hcz])]
        show ((sb.getD 64 0 : Int) + 27) - 27 = _
        ring
      rw [hV]
      exact recoverPlain_reconstruct keccak ecrecover _ sb hlen hbytes hbit hval
        pub hrec hpub hpubne
  · have hget := signatureGet_nonzero cfg (by rw [hc]; exact hcz) sb hlen
      (sb.getD 64 0) rfl hbit
    refine ⟨{ cret with sigv := ⟨(bytesToNat (sb.take 32) : Int),
      (bytesToNat ((sb.drop 32).take 32) : Int),
      (sb.getD 64 0 : Int) + 35 + cfg.chainIdMul⟩ }, ?_, ?_⟩
    · unfold CredentialSign.sign
      simp [hh, hsign, hget]
    · rw [sender_eval cfg mh keccak ecrecover _
        (by show deriveChainId ((sb.getD 64 0 : Int) + 35 + cfg.chainIdMul)
              = cfg.chainId
            rw [hmul, hc]
            exact deriveChainId_encode (by omega) hbit)]
      have hV : senderV cfg { cret with sigv := ⟨(bytesToNat (sb.take 32) : Int),
          (bytesToNat ((sb.drop 32).take 32) : Int),
          (sb.getD 64 0 : Int) + 35 + cfg.chainIdMul⟩ }
          = ((sb.getD 64 0 : Nat) : Int) := by
        unfold senderV
        rw [if_pos (by rw [hc]; exact hcz)]
        show ((sb.getD 64 0 : Int) + 35 + cfg.chainIdMul) - cfg.chainIdMul - 35 = _
        ring
      rw [hV]
      exact recoverPlain_reconstruct keccak ecrecover _ sb hlen hbytes hbit hval
        pub hrec hpub hpubne

theorem credentialSign_sign_sender_roundtrip_witness :
    CredentialSign.sign cfgW mhW ethSignW (some 5) credW = .ok ⟨⟨1, 1, 37⟩, 1, 2⟩ ∧
    CredentialSign.sender cfgW mhW keccakW ecrW ⟨⟨1, 1, 37⟩, 1, 2⟩ =
      .ok (addressOfPubKey keccakW pubW) := by
  obtain ⟨cret2, h1, h2⟩ := credentialSign_sign_sender_roundtrip cfgW 1 rfl
    (by decide) rfl mhW keccakW ethSignW ecrW 5 pubW credW (by decide) sigValidW
    rfl (by decide) (by decide) (by decide) (by decide) rfl rfl (by decide)
  have hcomp : CredentialSign.sign cfgW mhW ethSignW (some 5) credW
      = .ok ⟨⟨1, 1, 37⟩, 1, 2⟩ := by rfl
  have hc2 : cret2 = ⟨⟨1, 1, 37⟩, 1, 2⟩ := Except.ok.inj (h1.symm.trans hcomp)
  exact ⟨hcomp, hc2 ▸ h2⟩

/-- C2: the error paths of sender(). (a) If the V component's derived
chain id differs from the configured chainId the result is the
InvalidChainId error; (b) in particular a signature whose V was stored
by `get` under chainId A fails recovery under a configured chainId
B ≠ A with the InvalidChainId error; once the chain-id check passes,
(c) a reduced V wider than 8 bits or R/S/V failing curve-range
validation yields the invalid-signature error, (d) a public-key
recovery failure yields its error, and (e) an empty or
non-uncompressed recovered key yields the invalid-public-key error —
in every case an error, never an address. -/
theorem credentialSign_sender_error_paths
    (cfg : AposConfig)
    (mh : CredentialSigForHash → List Nat) (keccak : List Nat → List Nat)
    (ecr : List Nat → List Nat → Except String (List Nat))
    (cret : CredentialSign) :
    (deriveChainId cret.sigv.V ≠ cfg.chainId →
      CredentialSign.sender cfg mh keccak ecr cret = .error .invalidChainId) ∧
    (∀ A : Int, 0 ≤ A → A ≠ cfg.chainId → ∀ b : Nat, b ≤ 1 →
      CredentialSign.sender cfg mh keccak ecr
        { cret with sigv := ⟨cret.sigv.R, cret.sigv.S,
            if A ≠ 0 then (b : Int) + 35 + 2 * A else (b : Int) + 27⟩ }
        = .error .invalidChainId) ∧
    (deriveChainId cret.sigv.V = cfg.chainId →
      (256 ≤ (senderV cfg cret).natAbs ∨
        ValidateSignatureValues ((senderV cfg cret).natAbs % 2 ^ 64 % 256)
          cret.sigv.R cret.sigv.S true = false) →
      CredentialSign.sender cfg mh keccak ecr cret = .error .invalidSig) ∧
    (deriveChainId cret.sigv.V = cfg.chainId →
      (senderV cfg cret).natAbs < 256 →
      ValidateSignatureValues ((senderV cfg cret).natAbs % 2 ^ 64 % 256)
        cret.sigv.R cret.sigv.S true = true →
      ∀ e, ecr (CredentialSign.hash mh cret) (senderSigBytes cfg cret) = .error e →
      CredentialSign.sender cfg mh keccak ecr cret = .error (.ecrecoverFail e)) ∧
    (deriveChainId cret.sigv.V = cfg.chainId →
      (senderV cfg cret).natAbs < 256 →
      ValidateSignatureValues ((senderV cfg cret).natAbs % 2 ^ 64 % 256)
        cret.sigv.R cret.sigv.S true = true →
      ∀ pub, ecr (CredentialSign.hash mh cret) (senderSigBytes cfg cret) = .ok pub →
      (pub.length = 0 ∨ pub.getD 0 0 ≠ 4) →
      CredentialSign.sender cfg mh keccak ecr cret = .error .invalidPubKey) := by
  refine ⟨?_, ?_, ?_, ?_, ?_⟩
  · intro hne
    unfold CredentialSign.sender
    rw [if_pos hne]
  · intro A hA hAB b hb
    have hd : deriveChainId (if A ≠ 0 then (b : Int) + 35 + 2 * A
        else (b : Int) + 27) = A := by
      by_cases hA0 : A = 0
      · rw [if_neg (by simp [hA0]), hA0]
        exact deriveChainId_base hb
      · rw [if_pos hA0]
        exact deriveChainId_encode (by omega) hb
    have hcond : deriveChainId ({ cret with sigv := ⟨cret.sigv.R, cret.sigv.S,
        if A ≠ 0 then (b : Int) + 35 + 2 * A else (b : Int) + 27⟩ }
        : CredentialSign).sigv.V ≠ cfg.chainId := by
      show deriveChainId (if A ≠ 0 then (b : Int) + 35 + 2 * A
        else (b : Int) + 27) ≠ cfg.chainId
      rw [hd]
      exact hAB
    unfold CredentialSign.sender
    rw [if_pos hcond]
  · intro hd hbad
    rw [sender_eval cfg mh keccak ecr cret hd]
    unfold recoverPlain
    rcases hbad with h1 | h2
    · rw [if_pos h1]
    · by_cases h1 : 256 ≤ (senderV cfg cret).natAbs
      · rw [if_pos h1]
      · rw [if_neg h1, if_pos (by rw [h2]; simp)]
  · intro hd h1 h2 e herr
    rw [sender_eval cfg mh keccak ecr cret hd]
    unfold recoverPlain
    rw [if_neg (by omega), if_neg (by rw [h2]; simp)]
    rw [show (natToBytesBE 32 cret.sigv.R.toNat ++ natToBytesBE 32 cret.sigv.S.toNat
      ++ [(senderV cfg cret).natAbs % 2 ^ 64 % 256]) = senderSigBytes cfg cret from rfl]
    rw [herr]
  · intro hd h1 h2 pub hok hbadpub
    rw [sender_eval cfg mh keccak ecr cret hd]
    unfold recoverPlain
    rw [if_neg (by omega), if_neg (by rw [h2]; simp)]
    rw [show (natToBytesBE 32 cret.sigv.R.toNat ++ natToBytesBE 32 cret.sigv.S.toNat
      ++ [(senderV cfg cret).natAbs % 2 ^ 64 % 256]) = senderSigBytes cfg cret from rfl]
    rw [hok]
    rcases hbadpub with h | h
    · simp [h]
    · have h4 : pub[0]?.getD 0 ≠ 4 := by
        simpa [List.getD] using h
      simp [h4]

theorem credentialSign_sender_error_paths_witness :
    CredentialSign.sender cfgW mhW keccakW ecrW credV100 = .error .invalidChainId ∧
    CredentialSign.sender cfgW mhW keccakW ecrW ⟨⟨1, 1, 39⟩, 1, 2⟩
      = .error .invalidChainId ∧
    CredentialSign.sender cfgW mhW keccakW ecrW credBadRS = .error .invalidSig ∧
    CredentialSign.sender cfgW mhW keccakW ecrFailW credGood
      = .error (.ecrecoverFail "boom") ∧
    CredentialSign.sender cfgW mhW keccakW ecrBadW credGood
      = .error .invalidPubKey := by
  have h1 := credentialSign_sender_error_paths cfgW mhW keccakW ecrW credV100
  have h2 := (credentialSign_sender_error_paths cfgW mhW keccakW ecrW
    credGood).2.1 2 (by decide) (by decide) 0 (by decide)
  have h3 := credentialSign_sender_error_paths cfgW mhW keccakW ecrW credBadRS
  have h4 := credentialSign_sender_error_paths cfgW mhW keccakW ecrFailW credGood
  have h5 := credentialSign_sender_error_paths cfgW mhW keccakW ecrBadW credGood
  exact ⟨h1.1 (by decide), h2,
    h3.2.2.1 (by decide) (Or.inr (by decide)),
    h4.2.2.2.1 (by decide) (by decide) (by decide) "boom" rfl,
    h5.2.2.2.2 (by decide) (by decide) (by decide) [5] rfl (by decide)⟩

/-- C3 counterexample: sigEx is initialized and its reduced components
pass curve-range validation — V - chainIdMul - 35 = 256 truncates to
the recovery byte 0 under byte(Uint64()) — so toBytes produces 65
bytes, but get() on those bytes reconstructs V = 37 ≠ 293: the
round-trip does NOT reproduce the original signature, refuting the
claim as stated. -/
theorem signature_toBytes_get_roundtrip_counterexample :
    ValidateSignatureValues (Signature.vbyte cfgW sigEx) sigEx.R sigEx.S true
      = true ∧
    Signature.toBytes cfgW sigEx
      = some (natToBytesBE 32 1 ++ natToBytesBE 32 1 ++ [0]) ∧
    Signature.get cfgW (natToBytesBE 32 1 ++ natToBytesBE 32 1 ++ [0])
      = .ok ⟨1, 1, 37⟩ ∧
    (⟨1, 1, 37⟩ : Signature) ≠ sigEx :=
  ⟨by decide, by rfl, by rfl, by decide⟩

/-- C3 (amended): for every initialized Signature whose components pass
curve-range validation and whose V is the canonical chain-id encoding
(`V = vb + 35 + chainIdMul` with `vb` in {0,1} when chainId is
non-zero; `V = vb + 27` when chainId is zero), toBytes produces exactly
65 bytes laid out as R(32) || S(32) || vb, and get() on those bytes
reconstructs the original signature, including the chain-id-derived V. -/
theorem signature_toBytes_get_roundtrip_canonical (cfg : AposConfig)
    (s : Signature) (vb : Nat) (hvb : vb ≤ 1)
    (hV : (cfg.chainId ≠ 0 ∧ s.V = (vb : Int) + 35 + cfg.chainIdMul) ∨
          (cfg.chainId = 0 ∧ s.V = (vb : Int) + 27))
    (hval : ValidateSignatureValues vb s.R s.S true = true) :
    s.toBytes cfg
      = some (natToBytesBE 32 s.R.toNat ++ natToBytesBE 32 s.S.toNat ++ [vb]) ∧
    (natToBytesBE 32 s.R.toNat ++ natToBytesBE 32 s.S.toNat ++ [vb]).length = 65 ∧
    Signature.get cfg
        (natToBytesBE 32 s.R.toNat ++ natToBytesBE 32 s.S.toNat ++ [vb])
      = .ok s := by
  obtain ⟨R, S, V⟩ := s
  dsimp only at hV hval ⊢
  have h64 : (2 : Nat) ^ 64 = 18446744073709551616 := by norm_num
  have hvbyte : Signature.vbyte cfg ⟨R, S, V⟩ = vb := by
    unfold Signature.vbyte
    dsimp only
    rcases hV with ⟨hcne, hVv⟩ | ⟨hc0, hVv⟩
    · rw [if_pos hcne, hVv]
      have he : (vb : Int) + 35 + cfg.chainIdMul - cfg.chainIdMul - 35
          = (vb : Int) := by ring
      rw [he, Int.natAbs_ofNat, h64]
      omega
    · rw [if_neg (by simp [hc0]), hVv]
      have he : (vb : Int) + 27 - 27 = (vb : Int) := by ring
      rw [he, Int.natAbs_ofNat, h64]
      omega
  obtain ⟨hr1, hs1, _, hrN, hsN, _⟩ := validate_spec hval
  have hNlt := secp256k1N_lt_2pow256
  have hRlt : R.toNat < 256 ^ 32 := by omega
  have hSlt : S.toNat < 256 ^ 32 := by omega
  have hlenA : (natToBytesBE 32 R.toNat).length = 32 := natToBytesBE_length _ _
  have hlenB : (natToBytesBE 32 S.toNat).length = 32 := natToBytesBE_length _ _
  have hA : bytesToNat (natToBytesBE 32 R.toNat) = R.toNat := by
    rw [bytesToNat_natToBytesBE]
    exact Nat.mod_eq_of_lt hRlt
  have hB : bytesToNat (natToBytesBE 32 S.toNat) = S.toNat := by
    rw [bytesToNat_natToBytesBE]
    exact Nat.mod_eq_of_lt hSlt
  have htb : Signature.toBytes cfg ⟨R, S, V⟩
      = some (natToBytesBE 32 R.toNat ++ natToBytesBE 32 S.toNat ++ [vb]) := by
    unfold Signature.toBytes
    rw [hvbyte]
    dsimp only
    rw [if_neg (by rw [hval]; simp)]
  have hlenL : (natToBytesBE 32 R.toNat ++ natToBytesBE 32 S.toNat
      ++ [vb]).length = 65 := by
    simp [natToBytesBE_length]
  refine ⟨htb, hlenL, ?_⟩
  have htake : (natToBytesBE 32 R.toNat ++ natToBytesBE 32 S.toNat
      ++ [vb]).take 32 = natToBytesBE 32 R.toNat := by
    rw [List.append_assoc]
    exact List.take_left' hlenA
  have hdrop : ((natToBytesBE 32 R.toNat ++ natToBytesBE 32 S.toNat
      ++ [vb]).drop 32).take 32 = natToBytesBE 32 S.toNat := by
    rw [List.append_assoc, List.drop_left' hlenA]
    exact List.take_left' hlenB
  have hgd : (natToBytesBE 32 R.toNat ++ natToBytesBE 32 S.toNat
      ++ [vb]).getD 64 0 = vb := by
    rw [List.append_assoc]
    exact getD_at_64 _ _ _ hlenA hlenB
  have hR2 : ((R.toNat : Nat) : Int) = R := Int.toNat_of_nonneg (by omega)
  have hS2 : ((S.toNat : Nat) : Int) = S := Int.toNat_of_nonneg (by omega)
  unfold Signature.get
  rw [if_neg (by omega)]
  rw [htake, hdrop, hgd, hA, hB]
  rcases hV with ⟨hcne, hVv⟩ | ⟨hc0, hVv⟩
  · rw [if_pos hcne]
    rw [Nat.mod_eq_of_lt (show vb + 35 < 256 by omega)]
    rw [hR2, hS2, hVv]
    exact rfl
  · rw [if_neg (by simp [hc0])]
    rw [Nat.mod_eq_of_lt (show vb + 27 < 256 by omega)]
    rw [hR2, hS2, hVv]
    exact rfl

theorem signature_toBytes_get_roundtrip_canonical_witness :
    Signature.toBytes cfgW ⟨1, 1, 37⟩
      = some (natToBytesBE 32 1 ++ natToBytesBE 32 1 ++ [0]) ∧
    (natToBytesBE 32 1 ++ natToBytesBE 32 1 ++ [0]).length = 65 ∧
    Signature.get cfgW (natToBytesBE 32 1 ++ natToBytesBE 32 1 ++ [0])
      = .ok ⟨1, 1, 37⟩ := by
  have h := signature_toBytes_get_roundtrip_canonical cfgW ⟨1, 1, 37⟩ 0 (by decide)
    (Or.inl ⟨by decide, by decide⟩) (by decide)
  exact ⟨h.1, h.2.1, h.2.2⟩

/-- C8: Cmp returns the big-integer comparison of the Keccak256 hashes
of the two credentials' serialized signatures — negative iff a's hash
value is smaller, zero iff equal, positive iff larger — and in every
non-empty list of credentials there is a credential whose hash value is
minimal (Cmp ≤ 0 against every element), any two such minimal elements
having the same hash value: the smallest credential-hash value is a
unique, deterministic minimum. -/
theorem credentialSign_cmp_orders_by_sig_hash (cfg : AposConfig)
    (keccak : List Nat → List Nat) (a b : CredentialSign) :
    (CredentialSign.Cmp cfg keccak a b < 0 ↔
      CredentialSign.sigHashBig cfg keccak a
        < CredentialSign.sigHashBig cfg keccak b) ∧
    (CredentialSign.Cmp cfg keccak a b = 0 ↔
      CredentialSign.sigHashBig cfg keccak a
        = CredentialSign.sigHashBig cfg keccak b) ∧
    (0 < CredentialSign.Cmp cfg keccak a b ↔
      CredentialSign.sigHashBig cfg keccak b
        < CredentialSign.sigHashBig cfg keccak a) ∧
    (∀ l : List CredentialSign, l ≠ [] →
      ∃ m ∈ l, (∀ c ∈ l, CredentialSign.Cmp cfg keccak m c ≤ 0) ∧
        ∀ m2 ∈ l, (∀ c ∈ l, CredentialSign.Cmp cfg keccak m2 c ≤ 0) →
          CredentialSign.sigHashBig cfg keccak m2
            = CredentialSign.sigHashBig cfg keccak m) := by
  have hcmp : ∀ u v : CredentialSign, CredentialSign.Cmp cfg keccak u v =
      if CredentialSign.sigHashBig cfg keccak u
        < CredentialSign.sigHashBig cfg keccak v then -1
      else if CredentialSign.sigHashBig cfg keccak u
        = CredentialSign.sigHashBig cfg keccak v then 0 else 1 :=
    fun _ _ => rfl
  have key : ∀ x y : Nat,
      ((if x < y then (-1 : Int) else if x = y then 0 else 1) < 0 ↔ x < y) ∧
      ((if x < y then (-1 : Int) else if x = y then 0 else 1) = 0 ↔ x = y) ∧
      (0 < (if x < y then (-1 : Int) else if x = y then 0 else 1) ↔ y < x) := by
    intro x y
    split_ifs with h1 h2 <;>
      refine ⟨?_, ?_, ?_⟩ <;> constructor <;> intro h3 <;>
        first
        | exact h3.elim
        | omega
  refine ⟨?_, ?_, ?_, ?_⟩
  · rw [hcmp]
    exact (key _ _).1
  · rw [hcmp]
    exact (key _ _).2.1
  · rw [hcmp]
    exact (key _ _).2.2
  · intro l hl
    obtain ⟨m, hm⟩ : ∃ m,
        m ∈ List.argmin (CredentialSign.sigHashBig cfg keccak) l := by
      cases ho : List.argmin (CredentialSign.sigHashBig cfg keccak) l with
      | none => exact absurd (List.argmin_eq_none.1 ho) hl
      | some m => exact ⟨m, by rw [Option.mem_def]⟩
    refine ⟨m, List.argmin_mem hm, ?_, ?_⟩
    · intro c hc
      have hf := List.le_of_mem_argmin hc hm
      rw [hcmp]
      split_ifs with h1 h2 <;> omega
    · intro m2 hm2 hall
      have h1 := List.le_of_mem_argmin hm2 hm
      have h2 := hall m (List.argmin_mem hm)
      rw [hcmp] at h2
      split_ifs at h2 with h3 h4 <;> omega

set_option maxRecDepth 10000 in
theorem credentialSign_cmp_orders_by_sig_hash_witness :
    CredentialSign.Cmp cfgW keccakW credBadRS credGood < 0 ∧
    CredentialSign.Cmp cfgW keccakW credBadRS credBadRS = 0 ∧
    CredentialSign.Cmp cfgW keccakW credBadRS credBadRS ≤ 0 := by
  have h := credentialSign_cmp_orders_by_sig_hash cfgW keccakW credBadRS credGood
  obtain ⟨m, hm, hmin, -⟩ := (credentialSign_cmp_orders_by_sig_hash cfgW keccakW
    credBadRS credBadRS).2.2.2 [credBadRS] (by simp)
  have hmeq : m = credBadRS := by simpa using hm
  refine ⟨h.1.mpr (by decide), ?_, ?_⟩
  · exact (credentialSign_cmp_orders_by_sig_hash cfgW keccakW
      credBadRS credBadRS).2.1.mpr rfl
  · exact hmeq ▸ hmin credBadRS (by simp)
